import Mathlib

/-!
Verification development for the Erie Hall badminton availability widget.

The definitions below are shallow embeddings of the Python sources:
`calendar_parser.py` (time parsing, gap sweep), `ical_parser.py`
(feed normalization), and `main.py` (merging, windowing, serialization).
Fractional hours are modelled as rationals; Python dictionaries are
modelled as insertion-ordered association lists.
-/

namespace ErieHall

/-- Event bucket entry as built by the scraping loops: the dictionary
`\x7b'start': start_hour, 'end': end_hour\x7d` of `calendar_parser.find_gaps`
(lines 214-228) and `ical_parser.fetch_ical_data` (lines 78-85). -/
structure Ev where
  start : ℚ
  stop : ℚ
deriving DecidableEq

/-- Gap record as appended by the sweep: the dictionary
`\x7b'start': ..., 'end': ..., 'duration': ...\x7d` of
`calendar_parser.find_gaps` lines 241-257. -/
structure Gap where
  start : ℚ
  stop : ℚ
  duration : ℚ
deriving DecidableEq

/-- Embedding of the per-day sweep loop of `find_gaps`
(`calendar_parser.py` lines 235-257, identical logic in
`ical_parser.fetch_ical_data` lines 110-137): a cursor starts at the
open hour; each event in (sorted) order emits a candidate gap
`[cursor, event.start)` when `event.start > cursor` and the duration is
at least 1 hour, then the cursor advances to `event.end` when
`event.end > cursor`; a trailing gap to the close hour is emitted the
same way. -/
def sweep (closeH : ℚ) : ℚ → List Ev → List Gap
  | cur, [] =>
      if cur < closeH then
        if 1 ≤ closeH - cur then [⟨cur, closeH, closeH - cur⟩] else []
      else []
  | cur, e :: es =>
      let tail := sweep closeH (if e.stop > cur then e.stop else cur) es
      if e.start > cur then
        (if 1 ≤ e.start - cur then [⟨cur, e.start, e.start - cur⟩] else []) ++ tail
      else tail

/-- Candidate gaps of the same sweep before the minimum-duration filter:
identical cursor progression, but every candidate `[cursor, start)` with
`start > cursor` is kept. Used to state that sub-threshold candidates
are dropped rather than merged. -/
def sweepNC (closeH : ℚ) : ℚ → List Ev → List Gap
  | cur, [] => if cur < closeH then [⟨cur, closeH, closeH - cur⟩] else []
  | cur, e :: es =>
      let tail := sweepNC closeH (if e.stop > cur then e.stop else cur) es
      if e.start > cur then ⟨cur, e.start, e.start - cur⟩ :: tail else tail

/-- Stable sort by start hour: `events.sort(key=lambda x: x['start'])`
(`calendar_parser.py` line 233). Python list sort is a stable merge
sort, matching `List.mergeSort`. -/
def sortEvents (events : List Ev) : List Ev :=
  events.mergeSort (fun a b => decide (a.start ≤ b.start))

/-- Per-day gap computation of `find_gaps` (`calendar_parser.py` lines
233-257): sort the events of the day by start hour, then sweep from the
open hour to the close hour with the 1-hour minimum filter. -/
def find_gaps_day (openH closeH : ℚ) (events : List Ev) : List Gap :=
  sweep closeH openH (sortEvents events)

unseal List.merge List.mergeSort

unseal Rat.sub Rat.add Rat.mul Rat.inv

/-- C2: for a day whose event list is exactly 9:00-10:00 and 14:00-15:00,
with open hour 6, close hour 23 and the default 1.0-hour minimum, the
gap calculator returns exactly the three gaps [6,9) of duration 3,
[10,14) of duration 4, and [15,23) of duration 8, in this order. -/
theorem C2_example_day :
    find_gaps_day 6 23 [⟨9, 10⟩, ⟨14, 15⟩] =
      [⟨6, 9, 3⟩, ⟨10, 14, 4⟩, ⟨15, 23, 8⟩] := by decide

/-- the sweep with the minimum-duration filter is the candidate sweep with
every sub-threshold candidate removed and nothing else changed: dropped
candidates are not merged into neighbors. -/
theorem sweep_eq_filter_sweepNC (closeH : ℚ) (es : List Ev) : ∀ (cur : ℚ),
    sweep closeH cur es =
      (sweepNC closeH cur es).filter (fun g => decide (1 ≤ g.duration)) := by
  induction es with
  | nil =>
      intro cur
      by_cases h1 : cur < closeH <;>
        by_cases h2 : 1 ≤ closeH - cur <;>
          simp [sweep, sweepNC, h1, h2]
  | cons e es ih =>
      intro cur
      by_cases h1 : e.start > cur <;>
        by_cases h2 : 1 ≤ e.start - cur <;>
          simp [sweep, sweepNC, h1, h2, ih]

/-- every candidate gap of the sweep starts at or after the cursor. -/
theorem sweepNC_start_ge (closeH : ℚ) (es : List Ev) : ∀ (cur : ℚ),
    ∀ g ∈ sweepNC closeH cur es, cur ≤ g.start := by
  induction es with
  | nil =>
      intro cur g hg
      simp only [sweepNC] at hg
      split at hg
      · simp at hg
        simp [hg]
      · simp at hg
  | cons e es ih =>
      intro cur g hg
      simp only [sweepNC] at hg
      have hcur : cur ≤ (if e.stop > cur then e.stop else cur) := by
        split <;> simp_all [le_of_lt]
      split at hg
      · rcases List.mem_cons.mp hg with h | h
        · simp [h]
        · exact le_trans hcur (ih _ g h)
      · exact le_trans hcur (ih _ g hg)

/-- every candidate gap of the sweep has duration equal to its end minus
its start, and the duration is positive. -/
theorem sweepNC_duration (closeH : ℚ) (es : List Ev) : ∀ (cur : ℚ),
    ∀ g ∈ sweepNC closeH cur es,
      g.duration = g.stop - g.start ∧ 0 < g.duration := by
  induction es with
  | nil =>
      intro cur g hg
      simp only [sweepNC] at hg
      split at hg
      · rename_i h1
        simp at hg
        subst hg
        exact ⟨rfl, by simp only; linarith⟩
      · simp at hg
  | cons e es ih =>
      intro cur g hg
      simp only [sweepNC] at hg
      split at hg
      · rcases List.mem_cons.mp hg with h | h
        · subst h
          constructor
          · rfl
          · simp only
            linarith
        · exact ih _ g h
      · exact ih _ g hg

/-- when every event of the day satisfies start ≤ end, the candidate gaps
of the sweep are pairwise non-overlapping: each one ends no later than the
next one starts. -/
theorem sweepNC_pairwise (closeH : ℚ) (es : List Ev)
    (h : ∀ e ∈ es, e.start ≤ e.stop) : ∀ (cur : ℚ),
    List.Pairwise (fun a b => a.stop ≤ b.start) (sweepNC closeH cur es) := by
  induction es with
  | nil =>
      intro cur
      simp only [sweepNC]
      split <;> simp
  | cons e es ih =>
      intro cur
      have he : e.start ≤ e.stop := h e (List.mem_cons_self e es)
      have h' : ∀ x ∈ es, x.start ≤ x.stop := fun x hx =>
        h x (List.mem_cons_of_mem e hx)
      simp only [sweepNC]
      split
      · rename_i hgt
        refine List.pairwise_cons.mpr ⟨?_, ih h' _⟩
        intro b hb
        have hb1 := sweepNC_start_ge closeH es (if e.stop > cur then e.stop else cur) b hb
        have hcur : e.start ≤ (if e.stop > cur then e.stop else cur) := by
          split <;> [exact he; linarith]
        exact le_trans hcur hb1
      · exact ih h' _

/-- the events of a day, after the stable sort by start hour, all still
satisfy any property satisfied by every original event. -/
theorem mem_sortEvents {events : List Ev} {e : Ev} :
    e ∈ sortEvents events ↔ e ∈ events := by
  simp [sortEvents]

/-- C1 counterexample: with window 6..23, the day event list
[9:00-10:00, 11:00PM-1:00AM] (the second event wraps past midnight, so
its parsed end hour 1 is below its start hour 23) makes the gap
calculator emit the interval [10,23) twice; the output is not pairwise
non-overlapping, refuting the claim for an arbitrary list of events. -/
theorem C1_overlap_counterexample :
    find_gaps_day 6 23 [⟨9, 10⟩, ⟨23, 1⟩] =
      [⟨6, 9, 3⟩, ⟨10, 23, 13⟩, ⟨10, 23, 13⟩] ∧
    ¬ List.Pairwise (fun a b : Gap => a.stop ≤ b.start)
        (find_gaps_day 6 23 [⟨9, 10⟩, ⟨23, 1⟩]) := by
  constructor
  · decide
  · decide

/-- C1 (amended): for every operating window and every finite list of
events of a day in which each event satisfies start ≤ end (no event
wraps past the day boundary), the gap list is sorted strictly ascending
by start hour, pairwise non-overlapping, every gap has duration equal to
its end minus its start and at least the 1.0-hour minimum, and the list
is exactly the candidate sweep with sub-threshold candidates dropped and
nothing merged. -/
theorem C1_gap_invariants (openH closeH : ℚ) (events : List Ev)
    (h : ∀ e ∈ events, e.start ≤ e.stop) :
    List.Pairwise (fun a b => a.start < b.start)
        (find_gaps_day openH closeH events) ∧
    List.Pairwise (fun a b => a.stop ≤ b.start)
        (find_gaps_day openH closeH events) ∧
    (∀ g ∈ find_gaps_day openH closeH events,
        g.duration = g.stop - g.start ∧ 1 ≤ g.duration) ∧
    find_gaps_day openH closeH events =
      (sweepNC closeH openH (sortEvents events)).filter
        (fun g => decide (1 ≤ g.duration)) := by
  have hs : ∀ e ∈ sortEvents events, e.start ≤ e.stop := by
    intro e he
    exact h e (mem_sortEvents.mp he)
  have hfe : find_gaps_day openH closeH events =
      (sweepNC closeH openH (sortEvents events)).filter
        (fun g => decide (1 ≤ g.duration)) :=
    sweep_eq_filter_sweepNC closeH (sortEvents events) openH
  have hmem : ∀ g ∈ find_gaps_day openH closeH events,
      g.duration = g.stop - g.start ∧ 1 ≤ g.duration := by
    intro g hg
    rw [hfe] at hg
    have h1 := List.mem_filter.mp hg
    have h2 := sweepNC_duration closeH (sortEvents events) openH g h1.1
    exact ⟨h2.1, by simpa using h1.2⟩
  have hpw : List.Pairwise (fun a b => a.stop ≤ b.start)
      (find_gaps_day openH closeH events) := by
    rw [hfe]
    exact (sweepNC_pairwise closeH (sortEvents events) hs openH).filter _
  refine ⟨?_, hpw, hmem, hfe⟩
  refine hpw.imp_of_mem ?_
  intro a b ha hb hab
  have hda := hmem a ha
  have : a.start < a.stop := by
    have := hda.2
    rw [hda.1] at this
    linarith
  linarith

/-- C1 witness: the amended invariants instantiated at the spec example
day (events 9-10 and 14-15, window 6..23). -/
theorem C1_gap_invariants_witness :
    (∀ e ∈ ([⟨9, 10⟩, ⟨14, 15⟩] : List Ev), e.start ≤ e.stop) ∧
    (List.Pairwise (fun a b => a.start < b.start)
        (find_gaps_day 6 23 [⟨9, 10⟩, ⟨14, 15⟩]) ∧
    List.Pairwise (fun a b => a.stop ≤ b.start)
        (find_gaps_day 6 23 [⟨9, 10⟩, ⟨14, 15⟩]) ∧
    (∀ g ∈ find_gaps_day 6 23 [⟨9, 10⟩, ⟨14, 15⟩],
        g.duration = g.stop - g.start ∧ 1 ≤ g.duration) ∧
    find_gaps_day 6 23 [⟨9, 10⟩, ⟨14, 15⟩] =
      (sweepNC 23 6 (sortEvents [⟨9, 10⟩, ⟨14, 15⟩])).filter
        (fun g => decide (1 ≤ g.duration))) :=
  ⟨by decide, C1_gap_invariants 6 23 [⟨9, 10⟩, ⟨14, 15⟩] (by decide)⟩

/-- total duration of a list of gaps, the sum of their `duration` fields. -/
def gap_dur_sum (gs : List Gap) : ℚ := (gs.map (fun g => g.duration)).sum

/-- total duration of a list of day events, the sum of end minus start. -/
def ev_dur_sum (es : List Ev) : ℚ := (es.map (fun e => e.stop - e.start)).sum

/-- sum of the durations of the events contained in the operating window,
following the claim wording: an event is contained when it starts no
earlier than the open hour and ends no later than the close hour. -/
def contained_dur_sum (openH closeH : ℚ) (es : List Ev) : ℚ :=
  ev_dur_sum (es.filter (fun e => decide (openH ≤ e.start ∧ e.stop ≤ closeH)))

@[simp] theorem gap_dur_sum_nil : gap_dur_sum [] = 0 := rfl

@[simp] theorem gap_dur_sum_cons (g : Gap) (l : List Gap) :
    gap_dur_sum (g :: l) = g.duration + gap_dur_sum l := by
  simp [gap_dur_sum]

@[simp] theorem ev_dur_sum_nil : ev_dur_sum [] = 0 := rfl

@[simp] theorem ev_dur_sum_cons (e : Ev) (l : List Ev) :
    ev_dur_sum (e :: l) = (e.stop - e.start) + ev_dur_sum l := by
  simp [ev_dur_sum]

/-- conditional expression of the cursor update written as a maximum. -/
theorem if_gt_eq_max (a b : ℚ) : (if b > a then b else a) = max a b := by
  rcases le_or_lt b a with h | h
  · rw [if_neg (not_lt.mpr h), max_eq_left h]
  · rw [if_pos h, max_eq_right h.le]

/-- accounting identity of the unfiltered sweep: when every event ends by
the close hour, the events are sorted by start and pairwise
non-overlapping, and every event either starts at or after the cursor or
is an empty event already passed by it, the candidate gap durations plus
the event durations sum exactly to the close hour minus the cursor. -/
theorem sweepNC_sum (closeH : ℚ) (es : List Ev) : ∀ (cur : ℚ),
    cur ≤ closeH →
    (∀ e ∈ es, e.start ≤ e.stop ∧ e.stop ≤ closeH) →
    List.Pairwise (fun a b => a.start ≤ b.start) es →
    List.Pairwise (fun a b => a.stop ≤ b.start ∨ b.stop ≤ a.start) es →
    (∀ e ∈ es, cur ≤ e.start ∨ (e.start = e.stop ∧ e.stop ≤ cur)) →
    gap_dur_sum (sweepNC closeH cur es) + ev_dur_sum es = closeH - cur := by
  induction es with
  | nil =>
      intro cur hcl _ _ _ _
      simp only [sweepNC]
      rcases lt_or_eq_of_le hcl with h | h
      · simp [h]
      · simp [h, lt_irrefl]
  | cons e es ih =>
      intro cur hcl hb hsort hsym hinv
      have he := hb e (List.mem_cons_self e es)
      have hb' : ∀ x ∈ es, x.start ≤ x.stop ∧ x.stop ≤ closeH :=
        fun x hx => hb x (List.mem_cons_of_mem e hx)
      have hsort' := List.pairwise_cons.mp hsort
      have hsym' := List.pairwise_cons.mp hsym
      have hinv_e := hinv e (List.mem_cons_self e es)
      have hmaxcl : max cur e.stop ≤ closeH := max_le hcl he.2
      have hinv' : ∀ x ∈ es,
          max cur e.stop ≤ x.start ∨ (x.start = x.stop ∧ x.stop ≤ max cur e.stop) := by
        intro x hx
        rcases hsym'.1 x hx with hL | hR
        · rcases hinv x (List.mem_cons_of_mem e hx) with hc | hz
          · exact Or.inl (max_le hc hL)
          · exact Or.inr ⟨hz.1, le_trans hz.2 (le_max_left _ _)⟩
        · have h1 : e.start ≤ x.start := hsort'.1 x hx
          have h2 : x.start ≤ x.stop := (hb' x hx).1
          have hx_eq : x.start = x.stop := le_antisymm h2 (le_trans hR h1)
          exact Or.inr ⟨hx_eq, le_trans (le_trans hR he.1) (le_max_right _ _)⟩
      have IH := ih (max cur e.stop) hmaxcl hb' hsort'.2 hsym'.2 hinv'
      simp only [sweepNC, if_gt_eq_max]
      by_cases hgt : e.start > cur
      · have hmax : max cur e.stop = e.stop :=
          max_eq_right (le_trans (le_of_lt hgt) he.1)
        rw [hmax] at IH
        rw [if_pos hgt, hmax]
        simp only [gap_dur_sum_cons, ev_dur_sum_cons]
        linarith
      · rw [if_neg hgt]
        push_neg at hgt
        rcases hinv_e with hc | hz
        · have hceq : cur = e.start := le_antisymm hc hgt
          have hmax : max cur e.stop = e.stop :=
            max_eq_right (hceq ▸ he.1)
          rw [hmax] at IH
          rw [hmax]
          simp only [ev_dur_sum_cons]
          rw [hceq]
          linarith
        · have hmax : max cur e.stop = cur := max_eq_left hz.2
          rw [hmax] at IH
          rw [hmax]
          simp only [ev_dur_sum_cons]
          rw [hz.1]
          linarith

/-- sum of the durations of a filtered gap list is bounded by the sum over
the whole list when every duration is nonnegative. -/
theorem gap_dur_sum_filter_le (p : Gap → Bool) (l : List Gap)
    (h : ∀ g ∈ l, 0 ≤ g.duration) :
    gap_dur_sum (l.filter p) ≤ gap_dur_sum l := by
  induction l with
  | nil => simp
  | cons g l ih =>
      have hg := h g (List.mem_cons_self g l)
      have h' : ∀ x ∈ l, 0 ≤ x.duration :=
        fun x hx => h x (List.mem_cons_of_mem g hx)
      by_cases hp : p g
      · rw [List.filter_cons_of_pos hp]
        simp only [gap_dur_sum_cons]
        linarith [ih h']
      · rw [List.filter_cons_of_neg (by simpa using hp)]
        simp only [gap_dur_sum_cons]
        linarith [ih h']

/-- events sorted by the stable sort are sorted by start hour. -/
theorem sortEvents_sorted (events : List Ev) :
    List.Pairwise (fun a b => a.start ≤ b.start) (sortEvents events) := by
  have h := @List.sorted_mergeSort Ev
    (fun a b : Ev => decide (a.start ≤ b.start))
    (fun a b c hab hbc => by
      simp only [decide_eq_true_eq] at *
      exact le_trans hab hbc)
    (fun a b => by
      simp only [Bool.or_eq_true, decide_eq_true_eq]
      exact le_total a.start b.start)
    events
  exact h.imp (fun hab => by simpa using hab)

/-- C3 counterexample: two identical events 9:00-10:00 in the window 6..23
double-count their durations, so the sum of gap durations plus contained
event durations is 18 and exceeds the 17-hour window, refuting the
unconditional bound; and the single event 6:00-22:30 has no boundary
crossing and no overlap, yet its trailing half-hour candidate gap is
dropped by the 1-hour minimum, so the sum is 16.5 and the equality clause
fails as well. -/
theorem C3_counterexample :
    gap_dur_sum (find_gaps_day 6 23 [⟨9, 10⟩, ⟨9, 10⟩]) +
        contained_dur_sum 6 23 [⟨9, 10⟩, ⟨9, 10⟩] = 18 ∧
    ¬ (gap_dur_sum (find_gaps_day 6 23 [⟨9, 10⟩, ⟨9, 10⟩]) +
        contained_dur_sum 6 23 [⟨9, 10⟩, ⟨9, 10⟩] ≤ 23 - 6) ∧
    gap_dur_sum (find_gaps_day 6 23 [⟨6, 45/2⟩]) +
        contained_dur_sum 6 23 [⟨6, 45/2⟩] = 33/2 ∧
    ¬ (gap_dur_sum (find_gaps_day 6 23 [⟨6, 45/2⟩]) +
        contained_dur_sum 6 23 [⟨6, 45/2⟩] = 23 - 6) := by
  refine ⟨by decide, by decide, by decide, by decide⟩

/-- C3 (amended): for every operating window with open ≤ close and every
list of day events that all lie inside the window with start ≤ end and
are pairwise non-overlapping, the sum of emitted gap durations plus the
sum of contained event durations is at most close minus open; equality
holds whenever additionally every candidate gap of the sweep meets the
1.0-hour minimum (no candidate is dropped). -/
theorem C3_conservation (openH closeH : ℚ) (events : List Ev)
    (hoc : openH ≤ closeH)
    (hin : ∀ e ∈ events, openH ≤ e.start ∧ e.start ≤ e.stop ∧ e.stop ≤ closeH)
    (hno : List.Pairwise (fun a b => a.stop ≤ b.start ∨ b.stop ≤ a.start) events) :
    gap_dur_sum (find_gaps_day openH closeH events) +
        contained_dur_sum openH closeH events ≤ closeH - openH ∧
    ((∀ g ∈ sweepNC closeH openH (sortEvents events), 1 ≤ g.duration) →
      gap_dur_sum (find_gaps_day openH closeH events) +
          contained_dur_sum openH closeH events = closeH - openH) := by
  have hperm : List.Perm (sortEvents events) events := List.mergeSort_perm events _
  have hin' : ∀ e ∈ sortEvents events,
      openH ≤ e.start ∧ e.start ≤ e.stop ∧ e.stop ≤ closeH :=
    fun e he => hin e (hperm.mem_iff.mp he)
  have hsym : List.Pairwise (fun a b => a.stop ≤ b.start ∨ b.stop ≤ a.start)
      (sortEvents events) :=
    (hperm.pairwise_iff (fun hxy => hxy.symm)).mpr hno
  have hsum := sweepNC_sum closeH (sortEvents events) openH hoc
    (fun e he => ⟨(hin' e he).2.1, (hin' e he).2.2⟩)
    (sortEvents_sorted events) hsym
    (fun e he => Or.inl (hin' e he).1)
  have hev : ev_dur_sum (sortEvents events) = ev_dur_sum events := by
    unfold ev_dur_sum
    exact (hperm.map _).sum_eq
  have hcont : contained_dur_sum openH closeH events = ev_dur_sum events := by
    unfold contained_dur_sum
    congr 1
    refine List.filter_eq_self.mpr ?_
    intro e he
    simp only [decide_eq_true_eq]
    exact ⟨(hin e he).1, (hin e he).2.2⟩
  have hfil : find_gaps_day openH closeH events =
      (sweepNC closeH openH (sortEvents events)).filter
        (fun g => decide (1 ≤ g.duration)) :=
    sweep_eq_filter_sweepNC closeH (sortEvents events) openH
  have hpos : ∀ g ∈ sweepNC closeH openH (sortEvents events), 0 ≤ g.duration :=
    fun g hg => le_of_lt (sweepNC_duration closeH (sortEvents events) openH g hg).2
  constructor
  · have hle : gap_dur_sum ((sweepNC closeH openH (sortEvents events)).filter
        (fun g => decide (1 ≤ g.duration))) ≤
        gap_dur_sum (sweepNC closeH openH (sortEvents events)) :=
      gap_dur_sum_filter_le _ _ hpos
    rw [hfil, hcont]
    rw [hev] at hsum
    linarith
  · intro hall
    have hfe : (sweepNC closeH openH (sortEvents events)).filter
        (fun g => decide (1 ≤ g.duration)) =
        sweepNC closeH openH (sortEvents events) := by
      refine List.filter_eq_self.mpr ?_
      intro g hg
      simpa using hall g hg
    rw [hfil, hfe, hcont]
    rw [hev] at hsum
    linarith

/-- C3 witness: the amended conservation statement instantiated at the
spec example day (events 9-10 and 14-15, window 6..23), where the sums
reach equality. -/
theorem C3_conservation_witness :
    ((6:ℚ) ≤ 23 ∧
      (∀ e ∈ ([⟨9, 10⟩, ⟨14, 15⟩] : List Ev),
        (6:ℚ) ≤ e.start ∧ e.start ≤ e.stop ∧ e.stop ≤ 23) ∧
      List.Pairwise (fun a b : Ev => a.stop ≤ b.start ∨ b.stop ≤ a.start)
        [⟨9, 10⟩, ⟨14, 15⟩]) ∧
    (gap_dur_sum (find_gaps_day 6 23 [⟨9, 10⟩, ⟨14, 15⟩]) +
        contained_dur_sum 6 23 [⟨9, 10⟩, ⟨14, 15⟩] ≤ 23 - 6 ∧
    ((∀ g ∈ sweepNC 23 6 (sortEvents [⟨9, 10⟩, ⟨14, 15⟩]), 1 ≤ g.duration) →
      gap_dur_sum (find_gaps_day 6 23 [⟨9, 10⟩, ⟨14, 15⟩]) +
          contained_dur_sum 6 23 [⟨9, 10⟩, ⟨14, 15⟩] = 23 - 6)) :=
  ⟨⟨by decide, by decide, by decide⟩,
    C3_conservation 6 23 [⟨9, 10⟩, ⟨14, 15⟩] (by decide) (by decide) (by decide)⟩

/-- AM or PM suffix captured by the time regex of `parse_time`. -/
inductive Period where
  | AM : Period
  | PM : Period
deriving DecidableEq

/-- groups captured by the time regex of `parse_time`
(`calendar_parser.py` lines 20-40): an hour digit group, an optional
minute digit group (present exactly when the text has a colon), and the
AM/PM suffix. A time text on which neither regex matches is modelled as
`none` at the call sites. -/
structure Capture where
  hour : ℕ
  minute : Option ℕ
  period : Period
deriving DecidableEq

/-- embedding of `parse_time` (`calendar_parser.py` lines 16-43, repeated
verbatim in `ical_parser.py` lines 145-174): on a regex match, a PM hour
other than 12 gains 12, the AM hour 12 becomes 0, and the result is
hour + minute / 60 (or just the hour for the colon-free form); a failed
match returns None. -/
def parse_time : Option Capture → Option ℚ
  | none => none
  | some c =>
      let h : ℕ :=
        if c.period = Period.PM ∧ c.hour ≠ 12 then c.hour + 12
        else if c.period = Period.AM ∧ c.hour = 12 then 0
        else c.hour
      match c.minute with
      | some m => some ((h : ℚ) + (m : ℚ) / 60)
      | none => some ((h : ℚ))

/-- embedding of `format_hour` (`calendar_parser.py` lines 56-65): the
whole hours and the remaining minutes are truncated out of the
fractional hour (Python `int()` truncates, which on the nonnegative
hours in use equals the floor), the period is AM exactly when the
24-hour value is below 12, hours above 12 lose 12 and hour 0 renders as
12, and the minute group is present exactly when the minutes are
positive. -/
def format_hour (hour : ℚ) : Capture :=
  let h : ℤ := ⌊hour⌋
  let m : ℤ := ⌊(hour - (h : ℚ)) * 60⌋
  let period : Period := if h < 12 then Period.AM else Period.PM
  let h2 : ℤ := if h > 12 then h - 12 else if h = 0 then 12 else h
  { hour := h2.toNat
    minute := if m > 0 then some m.toNat else none
    period := period }

/-- round trip over all 1440 clock-representable fractional hours,
checked by evaluation. -/
theorem round_trip_fin :
    ∀ (h : Fin 24) (m : Fin 60),
      parse_time (some (format_hour ((h.val : ℚ) + (m.val : ℚ) / 60))) =
        some ((h.val : ℚ) + (m.val : ℚ) / 60) := by decide

/-- C4: for every fractional hour representable on the 12-hour clock
(h + m/60 with h < 24 and m < 60), rendering it with `format_hour` and
re-parsing the rendered text with `parse_time` returns exactly the
original fractional hour. -/
theorem C4_round_trip (h m : ℕ) (hh : h < 24) (hm : m < 60) :
    parse_time (some (format_hour ((h : ℚ) + (m : ℚ) / 60))) =
      some ((h : ℚ) + (m : ℚ) / 60) :=
  round_trip_fin ⟨h, hh⟩ ⟨m, hm⟩

/-- C4 witness: the round trip at the spec example 9 hours 5 minutes
(9.0833... renders as 9:05AM and re-parses to the same value). -/
theorem C4_round_trip_witness :
    (9 : ℕ) < 24 ∧ (5 : ℕ) < 60 ∧
    parse_time (some (format_hour ((9 : ℚ) + (5 : ℚ) / 60))) =
      some ((9 : ℚ) + (5 : ℚ) / 60) :=
  ⟨by decide, by decide, C4_round_trip 9 5 (by decide) (by decide)⟩

/-- C7 counterexample: the regex of `parse_time` accepts the text
25:00PM (any digit run matches the hour group), and the accepted text
parses to the fractional hour 37, outside [0,24). -/
theorem C7_out_of_range_counterexample :
    parse_time (some ⟨25, some 0, Period.PM⟩) = some 37 ∧
    ¬ ((37 : ℚ) < 24) := by decide

/-- C7 (amended): for every accepted time text whose hour field is at
most 12 and whose minute field, when present, is below 60, the returned
fractional hour lies in [0,24); the text 12:00AM maps to 0.0 and
12:00PM maps to 12.0. -/
theorem C7_parse_time_range :
    (∀ (c : Capture) (q : ℚ), c.hour ≤ 12 → (∀ mv ∈ c.minute, mv < 60) →
      parse_time (some c) = some q → 0 ≤ q ∧ q < 24) ∧
    parse_time (some ⟨12, some 0, Period.AM⟩) = some 0 ∧
    parse_time (some ⟨12, some 0, Period.PM⟩) = some 12 := by
  refine ⟨?_, by decide, by decide⟩
  intro c q hh hm hp
  obtain ⟨ch, cm, cp⟩ := c
  dsimp only at hh hm hp
  have hle : (if cp = Period.PM ∧ ch ≠ 12 then ch + 12
      else if cp = Period.AM ∧ ch = 12 then 0 else ch) ≤ 23 := by
    by_cases h1 : cp = Period.PM ∧ ch ≠ 12
    · rw [if_pos h1]
      have := h1.2
      omega
    · rw [if_neg h1]
      by_cases h2 : cp = Period.AM ∧ ch = 12
      · rw [if_pos h2]
        omega
      · rw [if_neg h2]
        omega
  set hv : ℕ := (if cp = Period.PM ∧ ch ≠ 12 then ch + 12
      else if cp = Period.AM ∧ ch = 12 then 0 else ch) with hvdef
  have hcast : (hv : ℚ) ≤ 23 := by exact_mod_cast hle
  cases cm with
  | none =>
      simp only [parse_time, Option.some.injEq] at hp
      subst hp
      constructor
      · positivity
      · linarith
  | some mv =>
      have hmv : mv < 60 := hm mv rfl
      have hmvq : (mv : ℚ) / 60 < 1 := by
        rw [div_lt_one (by norm_num : (0:ℚ) < 60)]
        exact_mod_cast hmv
      have hmvq0 : (0:ℚ) ≤ (mv : ℚ) / 60 := by positivity
      simp only [parse_time, Option.some.injEq] at hp
      subst hp
      constructor
      · positivity
      · linarith

/-- C7 witness: the range statement applied to the accepted text 9:30AM,
which parses to the in-range fractional hour 9.5. -/
theorem C7_parse_time_range_witness :
    (0:ℚ) ≤ 19/2 ∧ (19:ℚ)/2 < 24 :=
  C7_parse_time_range.1 ⟨9, some 30, Period.AM⟩ (19/2) (by decide) (by decide)
    (by decide)

/-- local wall-clock instant after the timezone conversion performed by
`get_arrow_or_datetime_in_eastern` (`ical_parser.py` lines 17-36): the
local calendar day index together with the wall-clock hour and minute
fields on that day, exactly the fields the normalizer reads. -/
structure LocalDT where
  day : ℤ
  hour : ℕ
  minute : ℕ
deriving DecidableEq

/-- raw iCal event as seen by the loop of `fetch_ical_data`: the begin
and end instants after conversion, each `none` when the conversion
helper returns None. -/
structure RawIcalEvent where
  start_dt : Option LocalDT
  end_dt : Option LocalDT
deriving DecidableEq

/-- normalized per-day event of `fetch_ical_data`: the date key comes
from the start instant and each fractional hour is
`hour + minute / 60.0` of the respective instant. -/
structure NormEv where
  date_key : ℤ
  start_hour : ℚ
  end_hour : ℚ
deriving DecidableEq

/-- embedding of the per-event normalization of `fetch_ical_data`
(`ical_parser.py` lines 61-85): skip the record when either instant is
missing or the start day is before today; otherwise emit an event keyed
by the start day whose end hour is computed from the wall-clock hour
and minute of the end instant alone, ignoring the end day entirely. -/
def normalize_event (today : ℤ) (ev : RawIcalEvent) : Option NormEv :=
  match ev.start_dt, ev.end_dt with
  | some s, some e =>
      if s.day < today then none
      else some ⟨s.day, (s.hour : ℚ) + (s.minute : ℚ) / 60,
                 (e.hour : ℚ) + (e.minute : ℚ) / 60⟩
  | _, _ => none

/-- C5: evaluation at a record whose end falls past the local day
boundary of its start (start on day 0 at 23:00, end on day 1 at 01:00,
so an unwrapped end hour would be 25 > 24): normalization does not
reject the record; it produces a normalized event whose end hour is the
wrapped wall-clock value 1, below the start hour 23, contradicting the
required rejection. -/
theorem C5_cross_midnight_not_rejected :
    normalize_event 0 ⟨some ⟨0, 23, 0⟩, some ⟨1, 1, 0⟩⟩ =
      some ⟨0, 23, 1⟩ ∧
    (1 : ℤ) > 0 ∧
    normalize_event 0 ⟨some ⟨0, 23, 0⟩, some ⟨1, 1, 0⟩⟩ ≠ none := by decide

/-- one calendar grid item as read by the scraping loop of `find_gaps`
(`calendar_parser.py` lines 214-228): `none` when the item carries no
aria-label or the event regex does not match, otherwise the captured
date text (kept abstract as a key type) with the two captured time
texts, each itself `none` when the inner regex of `parse_time` fails on
it. -/
structure GridItem (κ : Type) where
  label : Option (κ × Option Capture × Option Capture)

/-- append of a value onto the bucket of its key, modelling the Python
idiom of creating a missing dict entry as an empty list and appending,
with dict insertion order preserved. -/
def bucket_insert {κ α : Type} [DecidableEq κ] :
    List (κ × List α) → κ → α → List (κ × List α)
  | [], k, v => [(k, [v])]
  | (k0, vs) :: rest, k, v =>
      if k0 = k then (k0, vs ++ [v]) :: rest
      else (k0, vs) :: bucket_insert rest k v

/-- one iteration of the scraping loop of `find_gaps` (lines 214-228):
the item is skipped unless the outer regex matched and both captured
time texts parse, in which case the event is appended to the bucket of
its date text. -/
def collect_step {κ : Type} [DecidableEq κ]
    (m : List (κ × List Ev)) (item : GridItem κ) : List (κ × List Ev) :=
  match item.label with
  | none => m
  | some (d, st, et) =>
      match parse_time st, parse_time et with
      | some s, some e => bucket_insert m d ⟨s, e⟩
      | _, _ => m

/-- the whole normalizing loop of `find_gaps` building the per-day event
buckets from the grid items. -/
def collect_events {κ : Type} [DecidableEq κ] (items : List (GridItem κ)) :
    List (κ × List Ev) :=
  items.foldl collect_step []

/-- C6 counterexample: a batch containing one well-formed item and one
item whose start time text fails the time regex produces exactly the
same output as the batch without the malformed item, so the caller can
recover no skip count from the result: no skip counter is surfaced. -/
theorem C6_no_skip_counter_counterexample :
    collect_events
        ([⟨some (0, some ⟨9, some 0, Period.AM⟩, some ⟨10, some 0, Period.AM⟩)⟩,
          ⟨some (0, none, some ⟨10, some 0, Period.AM⟩)⟩] : List (GridItem ℕ)) =
      collect_events
        ([⟨some (0, some ⟨9, some 0, Period.AM⟩, some ⟨10, some 0, Period.AM⟩)⟩] :
          List (GridItem ℕ)) ∧
    parse_time (none : Option Capture) = none := by decide

/-- C6 (amended): a record whose time text is unparseable (either time
regex fails, or the aria-label or outer regex already failed) is
silently dropped: the batch result is exactly the result on the batch
without that record, every other record is still processed, and no
exception or skip count leaves the (total) normalizing loop. -/
theorem C6_malformed_record_dropped {κ : Type} [DecidableEq κ]
    (pre post : List (GridItem κ)) (bad : GridItem κ)
    (hbad : bad.label = none ∨
      (∃ d st et, bad.label = some (d, st, et) ∧
        (parse_time st = none ∨ parse_time et = none))) :
    collect_events (pre ++ bad :: post) = collect_events (pre ++ post) := by
  have hstep : ∀ m : List (κ × List Ev), collect_step m bad = m := by
    intro m
    rcases hbad with h | ⟨d, st, et, h, hpe⟩
    · simp [collect_step, h]
    · rcases hpe with hp | hp <;>
        · cases hst : parse_time st <;> cases het : parse_time et <;>
            simp_all [collect_step]
  unfold collect_events
  rw [List.foldl_append, List.foldl_append, List.foldl_cons, hstep]

/-- C6 witness: dropping a concrete malformed record (start time regex
failed) between two well-formed records leaves the batch result
unchanged. -/
theorem C6_malformed_record_dropped_witness :
    ((⟨some (7, none, some ⟨10, some 0, Period.AM⟩)⟩ : GridItem ℕ).label = none ∨
      (∃ d st et,
        (⟨some (7, none, some ⟨10, some 0, Period.AM⟩)⟩ : GridItem ℕ).label =
          some (d, st, et) ∧
        (parse_time st = none ∨ parse_time et = none))) ∧
    collect_events
        (([⟨some (7, some ⟨9, some 0, Period.AM⟩, some ⟨10, some 0, Period.AM⟩)⟩] :
            List (GridItem ℕ)) ++
          (⟨some (7, none, some ⟨10, some 0, Period.AM⟩)⟩ : GridItem ℕ) ::
            [⟨some (8, some ⟨2, none, Period.PM⟩, some ⟨3, none, Period.PM⟩)⟩]) =
      collect_events
        (([⟨some (7, some ⟨9, some 0, Period.AM⟩, some ⟨10, some 0, Period.AM⟩)⟩] :
            List (GridItem ℕ)) ++
          [⟨some (8, some ⟨2, none, Period.PM⟩, some ⟨3, none, Period.PM⟩)⟩]) :=
  ⟨Or.inr ⟨7, none, some ⟨10, some 0, Period.AM⟩, rfl, Or.inl rfl⟩,
    C6_malformed_record_dropped
      [⟨some (7, some ⟨9, some 0, Period.AM⟩, some ⟨10, some 0, Period.AM⟩)⟩]
      [⟨some (8, some ⟨2, none, Period.PM⟩, some ⟨3, none, Period.PM⟩)⟩]
      ⟨some (7, none, some ⟨10, some 0, Period.AM⟩)⟩
      (Or.inr ⟨7, none, some ⟨10, some 0, Period.AM⟩, rfl, Or.inl rfl⟩)⟩

/-- badminton event dictionary as built by `find_badminton_events`
(`calendar_parser.py` lines 154-162) and consumed by the merge loop of
`main` (lines 217-231): event name, date text and raw time texts are
kept abstract as key types; the court field is attached by the dedup
loop and read back by the serializer. -/
structure BEvent (ν κ τ : Type) where
  name : ν
  date_str : κ
  start : τ
  stop : τ
  court : Option String
deriving DecidableEq

/-- dedup key of the merge loop of `main` (line 227):
`(e['name'], e['date_str'], e['start'])`. -/
def bkey {ν κ τ : Type} (e : BEvent ν κ τ) : ν × κ × τ :=
  (e.name, e.date_str, e.start)

/-- court assignment `e['court'] = court_name` performed on a kept
event (line 230). -/
def set_court {ν κ τ : Type} (c : String) (e : BEvent ν κ τ) : BEvent ν κ τ :=
  { e with court := some c }

@[simp] theorem bkey_set_court {ν κ τ : Type} (c : String) (e : BEvent ν κ τ) :
    bkey (set_court c e) = bkey e := rfl

/-- the dedup loop of `main` (lines 225-231) with its running `seen`
set: an event whose key was already seen is skipped; otherwise its key
is recorded, its court is set, and it is appended to the output. -/
def dedup_badminton_aux {ν κ τ : Type} [DecidableEq ν] [DecidableEq κ] [DecidableEq τ]
    (court : String) : List (BEvent ν κ τ) → List (ν × κ × τ) → List (BEvent ν κ τ)
  | [], _ => []
  | e :: es, seen =>
      if bkey e ∈ seen then dedup_badminton_aux court es seen
      else set_court court e :: dedup_badminton_aux court es (bkey e :: seen)

/-- the dedup loop started with an empty `seen` set, as `main` does for
each court after concatenating and window-filtering the two scrape
passes. -/
def dedup_badminton {ν κ τ : Type} [DecidableEq ν] [DecidableEq κ] [DecidableEq τ]
    (court : String) (es : List (BEvent ν κ τ)) : List (BEvent ν κ τ) :=
  dedup_badminton_aux court es []

/-- key-filtered view of the dedup loop: for a key not yet seen, the
output keeps exactly the first input occurrence of that key (with the
court set); for an already-seen key it keeps nothing. -/
theorem dedup_aux_filter {ν κ τ : Type} [DecidableEq ν] [DecidableEq κ] [DecidableEq τ]
    (court : String) (k : ν × κ × τ) (es : List (BEvent ν κ τ)) :
    ∀ (seen : List (ν × κ × τ)),
    (dedup_badminton_aux court es seen).filter (fun e => decide (bkey e = k)) =
      if k ∈ seen then []
      else ((es.filter (fun e => decide (bkey e = k))).take 1).map (set_court court) := by
  induction es with
  | nil =>
      intro seen
      by_cases h : k ∈ seen <;> simp [dedup_badminton_aux, h]
  | cons e es ih =>
      intro seen
      by_cases hk : bkey e ∈ seen
      · rw [dedup_badminton_aux, if_pos hk, ih seen]
        by_cases hs : k ∈ seen
        · simp [hs]
        · have hne : ¬ (bkey e = k) := fun h => hs (h ▸ hk)
          rw [if_neg hs, if_neg hs, List.filter_cons_of_neg (by simpa using hne)]
      · rw [dedup_badminton_aux, if_neg hk]
        by_cases hek : bkey e = k
        · rw [List.filter_cons_of_pos (by simpa using hek), ih (bkey e :: seen),
            if_pos (List.mem_cons.mpr (Or.inl hek.symm))]
          by_cases hs : k ∈ seen
          · exact absurd (hek ▸ hs) hk
          · rw [if_neg hs, List.filter_cons_of_pos (by simpa using hek)]
            simp
        · rw [List.filter_cons_of_neg (by simpa using hek), ih (bkey e :: seen)]
          by_cases hs : k ∈ seen
          · rw [if_pos (List.mem_cons_of_mem _ hs), if_pos hs]
          · rw [if_neg (by
                intro hmem
                rcases List.mem_cons.mp hmem with h | h
                · exact hek h.symm
                · exact hs h), if_neg hs,
              List.filter_cons_of_neg (by simpa using hek)]

/-- C8: when the concatenated classified lists of two scrape passes
contain two events with the same dedup key (name, date text, start
text), the merged list of the dedup loop contains exactly one entry for
that key, namely the first occurrence with the current court attached,
retaining the fields of whichever pass produced it. -/
theorem C8_dedup_first_wins {ν κ τ : Type} [DecidableEq ν] [DecidableEq κ] [DecidableEq τ]
    (court : String) (es : List (BEvent ν κ τ)) (k : ν × κ × τ)
    (h2 : 2 ≤ (es.filter (fun e => decide (bkey e = k))).length) :
    ((dedup_badminton court es).filter (fun e => decide (bkey e = k))).length = 1 ∧
    (dedup_badminton court es).filter (fun e => decide (bkey e = k)) =
      ((es.filter (fun e => decide (bkey e = k))).take 1).map (set_court court) := by
  have h := dedup_aux_filter court k es []
  rw [if_neg (List.not_mem_nil k)] at h
  unfold dedup_badminton
  refine ⟨?_, h⟩
  rw [h, List.length_map, List.length_take]
  omega

/-- C8 witness: two events sharing the dedup key (1, 2, 3) across the
concatenation collapse to the first occurrence with the court set. -/
theorem C8_dedup_first_wins_witness :
    2 ≤ (([⟨1, 2, 3, 4, none⟩, ⟨1, 2, 3, 5, none⟩] : List (BEvent ℕ ℕ ℕ)).filter
        (fun e => decide (bkey e = (1, 2, 3)))).length ∧
    (((dedup_badminton "Court 1" [⟨1, 2, 3, 4, none⟩, ⟨1, 2, 3, 5, none⟩]).filter
        (fun e => decide (bkey e = (1, 2, 3)))).length = 1 ∧
      (dedup_badminton "Court 1"
          ([⟨1, 2, 3, 4, none⟩, ⟨1, 2, 3, 5, none⟩] : List (BEvent ℕ ℕ ℕ))).filter
        (fun e => decide (bkey e = (1, 2, 3))) =
        ((([⟨1, 2, 3, 4, none⟩, ⟨1, 2, 3, 5, none⟩] : List (BEvent ℕ ℕ ℕ)).filter
            (fun e => decide (bkey e = (1, 2, 3)))).take 1).map (set_court "Court 1")) :=
  ⟨by decide,
    C8_dedup_first_wins "Court 1" [⟨1, 2, 3, 4, none⟩, ⟨1, 2, 3, 5, none⟩] (1, 2, 3)
      (by decide)⟩

/-- embedding of `filter_for_week` (`main.py` lines 106-119): rebuild
the per-date dictionary keeping the entries whose key parses to a
calendar date inside the inclusive window
[target, target + (days - 1)]; entries with unparseable keys are
dropped (a parsed date object is always truthy in Python, None is
falsy). Calendar dates are day numbers and the date-text parser is an
explicit parameter. -/
def filter_for_week {κ β : Type} (parse_date : κ → Option ℤ)
    (data_dict : List (κ × β)) (target_start_date days : ℤ) : List (κ × β) :=
  data_dict.filter (fun kv =>
    match parse_date kv.1 with
    | some d => decide (target_start_date ≤ d ∧ d ≤ target_start_date + (days - 1))
    | none => false)

/-- C9: an entry survives the windowing exactly when it was present and
its date text parses to a date d with start ≤ d ≤ start + (N - 1),
inclusive on both ends; entries outside the span and entries with
unparseable date text are dropped, and the (total) filter raises
nothing. -/
theorem C9_window_membership {κ β : Type} (parse_date : κ → Option ℤ)
    (data_dict : List (κ × β)) (target days : ℤ) (kv : κ × β) :
    kv ∈ filter_for_week parse_date data_dict target days ↔
      (kv ∈ data_dict ∧ ∃ d, parse_date kv.1 = some d ∧
        target ≤ d ∧ d ≤ target + (days - 1)) := by
  unfold filter_for_week
  rw [List.mem_filter]
  cases hpd : parse_date kv.1 with
  | none => simp [hpd]
  | some d => simp [hpd, and_assoc]

/-- slot dictionary appended by the badminton merge of
`save_results_json` (`main.py` lines 62-67); gap slots carry no note
key, modelled as `none`. -/
structure Slot where
  start : ℚ
  stop : ℚ
  duration : ℚ
  note : Option String
deriving DecidableEq

/-- per-court, per-date slot map `all_gaps` of `main`, a dict of dicts
in insertion order. -/
def GapsMap : Type := List (String × List (String × List Slot))

/-- insertion of a slot under a court and a date text, modelling the
Python idiom of creating the missing court dict and date list before
appending (`main.py` lines 56-67). -/
def court_insert : GapsMap → String → String → Slot → GapsMap
  | [], c, d, s => [(c, bucket_insert [] d s)]
  | (c0, days) :: rest, c, d, s =>
      if c0 = c then (c0, bucket_insert days d s) :: rest
      else (c0, days) :: court_insert rest c d s

/-- one iteration of the badminton merge of `save_results_json`
(`main.py` lines 47-67): the times are parsed with `parse_time` and the
event is injected only when the Python condition
`court and d_str and s and e` is truthy, which requires the court
present and nonempty, the date text nonempty, and both parsed hours
present and nonzero (0.0 is falsy). -/
def merge_badminton_step (gaps : GapsMap)
    (event : BEvent String String (Option Capture)) : GapsMap :=
  match event.court, parse_time event.start, parse_time event.stop with
  | some c, some s, some e =>
      if ¬ c.isEmpty ∧ ¬ event.date_str.isEmpty ∧ s ≠ 0 ∧ e ≠ 0 then
        court_insert gaps c event.date_str ⟨s, e, e - s, some "Badminton Club"⟩
      else gaps
  | _, _, _ => gaps

/-- the whole badminton merge loop of `save_results_json`. -/
def merge_badminton (gaps : GapsMap)
    (events : List (BEvent String String (Option Capture))) : GapsMap :=
  events.foldl merge_badminton_step gaps

/-- C10: a classified event whose start or end time text parses to the
fractional hour 0.0 (12:00AM) is omitted from the report entirely (the
merge over any batch containing it equals the merge without it), while
an event with court present and nonempty, date text nonempty, and both
parsed hours nonzero is injected into the slot list of its court and
date. -/
theorem C10_midnight_omitted_and_injected :
    (∀ (gaps : GapsMap) (pre post : List (BEvent String String (Option Capture)))
        (bad : BEvent String String (Option Capture)),
      (parse_time bad.start = some 0 ∨ parse_time bad.stop = some 0) →
      merge_badminton gaps (pre ++ bad :: post) = merge_badminton gaps (pre ++ post)) ∧
    (∀ (gaps : GapsMap) (event : BEvent String String (Option Capture))
        (c : String) (s e : ℚ),
      event.court = some c → ¬ c.isEmpty → ¬ event.date_str.isEmpty →
      parse_time event.start = some s → s ≠ 0 →
      parse_time event.stop = some e → e ≠ 0 →
      merge_badminton_step gaps event =
        court_insert gaps c event.date_str ⟨s, e, e - s, some "Badminton Club"⟩) := by
  constructor
  · intro gaps pre post bad hbad
    have hstep : ∀ g : GapsMap, merge_badminton_step g bad = g := by
      intro g
      unfold merge_badminton_step
      rcases hbad with h | h <;>
        · cases hc : bad.court <;> cases hs : parse_time bad.start <;>
            cases he : parse_time bad.stop <;> simp_all
    unfold merge_badminton
    rw [List.foldl_append, List.foldl_append, List.foldl_cons, hstep]
  · intro gaps event c s e hc hce hd hs hs0 he he0
    unfold merge_badminton_step
    rw [hc, hs, he]
    simp [hce, hd, hs0, he0]

/-- C10 witness: a concrete event whose start parses to 12:00AM = 0.0
is dropped from the merge, and a concrete 9:00AM-10:00AM event with
court and date present is injected under its court and date. -/
theorem C10_midnight_omitted_and_injected_witness :
    ((parse_time (⟨"x", "Mon Jan 19 2026", some ⟨12, some 0, Period.AM⟩,
        some ⟨1, some 0, Period.AM⟩, some "Court 1"⟩ :
          BEvent String String (Option Capture)).start = some 0 ∨
      parse_time (some ⟨1, some 0, Period.AM⟩) = some 0) ∧
    merge_badminton []
        ([] ++ (⟨"x", "Mon Jan 19 2026", some ⟨12, some 0, Period.AM⟩,
          some ⟨1, some 0, Period.AM⟩, some "Court 1"⟩ :
            BEvent String String (Option Capture)) :: []) =
      merge_badminton [] ([] ++ [])) ∧
    merge_badminton_step []
        (⟨"y", "Mon Jan 19 2026", some ⟨9, some 0, Period.AM⟩,
          some ⟨10, some 0, Period.AM⟩, some "Court 1"⟩ :
            BEvent String String (Option Capture)) =
      court_insert [] "Court 1" "Mon Jan 19 2026" ⟨9, 10, 10 - 9, some "Badminton Club"⟩ :=
  ⟨⟨Or.inl (by decide),
    C10_midnight_omitted_and_injected.1 [] [] []
      ⟨"x", "Mon Jan 19 2026", some ⟨12, some 0, Period.AM⟩,
        some ⟨1, some 0, Period.AM⟩, some "Court 1"⟩
      (Or.inl (by decide))⟩,
    C10_midnight_omitted_and_injected.2 []
      ⟨"y", "Mon Jan 19 2026", some ⟨9, some 0, Period.AM⟩,
        some ⟨10, some 0, Period.AM⟩, some "Court 1"⟩
      "Court 1" 9 10 rfl (by decide) (by decide) (by decide) (by decide)
      (by decide) (by decide)⟩

end ErieHall
